import Mathlib

/-!
Shallow embedding of the Proposal Lifecycle & Vote Tally Engine of the
EVM_Governance_Bot repository, together with proofs and refutations of the
spec's claims about it.

Embedded source locations:
* `bot/utils/button_handler.py`, `ButtonHandler._handle_vote` (the tally
  mutation, lines 53-66) — `handleVote`;
* `bot/governance_monitor.py`, `GovernanceMonitor.monitor_new_proposals`,
  `_load_cache`, `_save_cache` — `monitorNewProposals`, `loadCache`,
  `saveCacheFile`;
* `bot/utils/data_processing.py`, `CacheManager.rotating_backup_file`,
  `_cleanup_old_backups`, `delete_executed_keys_and_archive` —
  `rotatingBackupFile`, `cleanupOldBackups`, `deleteExecutedKeysAndArchive`;
* `bot/main.py`, `GovernanceBot.load_vote_counts`, `save_vote_counts`
  (lines 220-231, the later definitions, which shadow the earlier ones) —
  `loadVoteCounts`, `directSaveStates`.

Python dicts are embedded as association lists with unique keys (key
uniqueness is carried as a hypothesis where a proof needs it); JSON
serialization is embedded at the level of the JSON object tree: writing and
re-parsing a JSON object is the identity on everything except non-string
dict keys, which `json.dump` stringifies.
-/

namespace GovBot

/-- Generic association-list lookup with propositional key equality;
embeds Python `d.get(k)` / `k in d`. -/
def lookupKey {κ β : Type} [DecidableEq κ] : List (κ × β) → κ → Option β
  | [], _ => none
  | (k, v) :: rest, u => if k = u then some v else lookupKey rest u

/-- Generic association-list update; embeds Python `d[k] = v` (replaces the
binding in place when the key is present, appends otherwise, matching dict
insertion-order semantics). -/
def setKey {κ β : Type} [DecidableEq κ] : List (κ × β) → κ → β → List (κ × β)
  | [], u, c => [(u, c)]
  | (k, v) :: rest, u, c =>
    if k = u then (u, c) :: rest else (k, v) :: setKey rest u c

/-- The three vote choices offered by the voting buttons. -/
inductive Choice where
  | aye
  | nay
  | recuse
deriving DecidableEq, Repr

/-- A per-thread vote record as stored in `vote_counts` (`bot/main.py`
lines 480-489): the `index` field, the three per-choice counters stored
directly under the keys `aye` / `nay` / `recuse`, and the `users` mapping
from user id to that user's current choice. -/
structure VoteData where
  index : Option Int
  aye : Nat
  nay : Nat
  recuse : Nat
  users : List (String × Choice)
deriving DecidableEq, Repr

/-- `vote_data.get(c, 0)` for a choice key `c`. -/
def getCount (vd : VoteData) : Choice → Nat
  | .aye => vd.aye
  | .nay => vd.nay
  | .recuse => vd.recuse

/-- `vote_data[c] = n` for a choice key `c`. -/
def setCount (vd : VoteData) : Choice → Nat → VoteData
  | .aye, n => { vd with aye := n }
  | .nay, n => { vd with nay := n }
  | .recuse, n => { vd with recuse := n }

/-- The tally mutation of `ButtonHandler._handle_vote`
(`bot/utils/button_handler.py` lines 53-66): look up the user's previous
vote; if present, `vote_data[previous] = max(0, vote_data.get(previous, 0) - 1)`
(on naturals `max 0 (n - 1)` is truncated subtraction, matching Python's
`max(0, n - 1)` on non-negative counters); then `users[user_id] = choice`
and `vote_data[choice] = vote_data.get(choice, 0) + 1`. -/
def handleVote (vd : VoteData) (user : String) (choice : Choice) : VoteData :=
  let vd1 :=
    match lookupKey vd.users user with
    | some prev => setCount vd prev (max 0 (getCount vd prev - 1))
    | none => vd
  let vd2 := { vd1 with users := setKey vd1.users user choice }
  setCount vd2 choice (getCount vd2 choice + 1)

/-- Number of entries of `users` whose value is the choice `c`. -/
def countChoice (users : List (String × Choice)) (c : Choice) : Nat :=
  users.countP (fun q => decide (q.2 = c))

/-- The tally invariant of the spec's data model: user keys are unique
(dict semantics) and each stored counter equals the number of users whose
current choice it counts. -/
def tallyOk (vd : VoteData) : Prop :=
  (vd.users.map Prod.fst).Nodup ∧
  vd.aye = countChoice vd.users .aye ∧
  vd.nay = countChoice vd.users .nay ∧
  vd.recuse = countChoice vd.users .recuse

instance (vd : VoteData) : Decidable (tallyOk vd) := by
  unfold tallyOk; infer_instance

/-- `sum(counts.values())`. -/
def sumCounts (vd : VoteData) : Nat := vd.aye + vd.nay + vd.recuse

/-- A sequence of `_handle_vote` calls by one user. -/
def applyVotes (vd : VoteData) (user : String) (cs : List Choice) : VoteData :=
  cs.foldl (fun v c => handleVote v user c) vd

/-- The three counters of a record, as one value; used to state that a
mutation leaves the counts unchanged. -/
def countsOf (vd : VoteData) : Nat × Nat × Nat := (vd.aye, vd.nay, vd.recuse)

/-! ### Archival pipeline (`bot/utils/data_processing.py`) -/

/-- An entry of `archived_votes`: the vote record plus the two stamps added
at archival time (`delete_executed_keys_and_archive` lines 87-91). -/
structure ArchiveEntry where
  record : VoteData
  archived_at : String
  final_status : String
deriving DecidableEq, Repr

/-- The retirement test of `delete_executed_keys_and_archive` lines 80-81:
`proposal_index = vote_data.get('index')`, retired iff
`proposal_index is not None and proposal_index not in active_proposals`. -/
def isRetired (activeProposals : List Int) (vd : VoteData) : Bool :=
  match vd.index with
  | some i => !(activeProposals.contains i)
  | none => false

/-- The `for thread_id, vote_data in vote_counts.items()` loop of
`delete_executed_keys_and_archive` lines 79-91, accumulating
`threads_to_lock` (identical to `keys_to_remove` in the source) and the
updated `archived_votes` dict. -/
def archiveLoop (active : List Int) (now : String) :
    List (String × VoteData) → List String × List (String × ArchiveEntry) →
    List String × List (String × ArchiveEntry)
  | [], acc => acc
  | p :: rest, (ts, ar) =>
    if isRetired active p.2 then
      archiveLoop active now rest
        (ts ++ [p.1], setKey ar p.1 ⟨p.2, now, "completed"⟩)
    else
      archiveLoop active now rest (ts, ar)

/-- Result of one reconciliation: the returned `threads_to_lock` list and
the two documents as written back to disk. -/
structure ReconcileResult where
  threadsToLock : List String
  voteCounts : List (String × VoteData)
  archivedVotes : List (String × ArchiveEntry)
deriving DecidableEq, Repr

/-- `CacheManager.delete_executed_keys_and_archive` (lines 62-107): walk the
vote-count document, collect the retired thread ids and their archive
entries, then pop each collected key from the document; `now` stands for
`datetime.now(timezone.utc).isoformat()`. -/
def deleteExecutedKeysAndArchive (voteCounts : List (String × VoteData))
    (activeProposals : List Int) (archivedVotes : List (String × ArchiveEntry))
    (now : String) : ReconcileResult :=
  let loop := archiveLoop activeProposals now voteCounts ([], archivedVotes)
  let keysToRemove := loop.1
  ⟨loop.1,
   voteCounts.filter (fun p => !(keysToRemove.contains p.1)),
   loop.2⟩

/-- The on-disk states reachable by crashing during the persistence steps of
`delete_executed_keys_and_archive`: the source saves the updated
vote-counts file first (lines 98-99) and the archive file second
(lines 101-102), so the crash states of the pair
(vote-counts file, archive file) are: both old, new tally with old archive,
and both new. -/
def reconcileFileStates (tallyFile : List (String × VoteData))
    (active : List Int) (archiveFile : List (String × ArchiveEntry))
    (now : String) :
    List (List (String × VoteData) × List (String × ArchiveEntry)) :=
  let r := deleteExecutedKeysAndArchive tallyFile active archiveFile now
  [(tallyFile, archiveFile), (r.voteCounts, archiveFile),
   (r.voteCounts, r.archivedVotes)]

/-! ### Rotating backups (`bot/utils/data_processing.py` lines 17-59)

A backup directory is embedded as the list of its `.bak` files, each with
its modification time. `shutil.copy2` creates one new directory entry; the
timestamped names of distinct backups are distinct, and modification times
are carried explicitly. -/

/-- The sort key of `_cleanup_old_backups` line 51:
`backup_files.sort(key=lambda x: x[1], reverse=True)` orders newest
(largest mtime) first. -/
def mtimeDesc (a b : String × Nat) : Prop := b.2 ≤ a.2

instance : DecidableRel mtimeDesc := fun a b => Nat.decLe b.2 a.2

instance : IsTotal (String × Nat) mtimeDesc :=
  ⟨fun a b => Nat.le_total b.2 a.2⟩

instance : IsTrans (String × Nat) mtimeDesc :=
  ⟨fun _ _ _ h1 h2 => Nat.le_trans h2 h1⟩

/-- `CacheManager._cleanup_old_backups` (lines 41-56): sort the backup files
newest-first by modification time and remove every file beyond
`max_backups`; the directory afterwards holds the first `max_backups`
files of the sorted order. -/
def cleanupOldBackups (backupFiles : List (String × Nat)) (maxBackups : Nat) :
    List (String × Nat) :=
  (backupFiles.insertionSort mtimeDesc).take maxBackups

/-- `CacheManager.rotating_backup_file` (lines 18-35): if the source file
does not exist, do nothing; otherwise copy it into the backup directory
(one new entry, named from the timestamp, with the copy's modification
time) and run the cleanup. -/
def rotatingBackupFile (sourceExists : Bool) (backupDir : List (String × Nat))
    (backupName : String) (backupMtime : Nat) (maxBackups : Nat) :
    List (String × Nat) :=
  if sourceExists then
    cleanupOldBackups (backupDir ++ [(backupName, backupMtime)]) maxBackups
  else backupDir

/-- `n` successive saves of an existing document with `max_backups = N`,
starting from an empty backup directory; save number `i` creates a backup
with a fresh, strictly larger modification time `i`. -/
def simSaves (maxBackups : Nat) : Nat → List (String × Nat)
  | 0 => []
  | n + 1 =>
    rotatingBackupFile true (simSaves maxBackups n) (toString n) n maxBackups

/-! ### Proposal discovery and cache persistence
(`bot/governance_monitor.py`) -/

/-- A Python dict key as it occurs in the proposal cache: the code inserts
`int` keys (`monitor_new_proposals` line 43) while `json.load` of the saved
file yields `str` keys; in Python `1 == "1"` is false, so the two never
compare equal under `in`. -/
inductive PyKey where
  | int (n : Int)
  | str (s : String)
deriving DecidableEq, Repr

/-- A proposal-cache entry as built at `monitor_new_proposals`
lines 43-48. -/
structure CacheEntry where
  id : Int
  discovered_at : String
  status : String
  title : String
deriving DecidableEq, Repr

/-- How `json.dump` renders a dict key: `int` keys are stringified, `str`
keys kept. -/
def pyKeyToJsonKey : PyKey → String
  | .int n => toString n
  | .str s => s

/-- `GovernanceMonitor._save_cache` at the JSON-object level: `json.dump`
stringifies every key (writing and re-parsing the JSON text is the identity
on the object tree, so text serialization is elided). -/
def saveCacheFile (cache : List (PyKey × CacheEntry)) :
    List (String × CacheEntry) :=
  cache.map (fun p => (pyKeyToJsonKey p.1, p.2))

/-- Content of a JSON file used by a loader: either it parses to a document
or `json.load` raises. -/
inductive FileContent (δ : Type) where
  | wellFormed (doc : δ)
  | malformed
deriving DecidableEq

/-- `GovernanceMonitor._load_cache` (lines 77-86): missing file gives `{}`;
a well-formed file gives the parsed document, whose keys are strings; any
exception while reading (malformed content included) is caught, logged,
and `{}` is returned. -/
def loadCache (file : Option (FileContent (List (String × CacheEntry)))) :
    List (PyKey × CacheEntry) :=
  match file with
  | none => []
  | some (.wellFormed doc) => doc.map (fun p => (PyKey.str p.1, p.2))
  | some .malformed => []

/-- `GovernanceMonitor.monitor_new_proposals` (lines 29-56), after the cache
has been loaded: for each active proposal id (the source applies `int()` to
the key; the second component is the optional `title` of its metadata), if
the int key is not in the cache dict, append the id to `new_proposals` and
insert a fresh entry under the int key. Returns `new_proposals` and the
updated in-memory cache; `now` stands for
`datetime.now(timezone.utc).isoformat()`. -/
def monitorNewProposals (activeProposals : List (Int × Option String))
    (cachedProposals : List (PyKey × CacheEntry)) (now : String) :
    List Int × List (PyKey × CacheEntry) :=
  activeProposals.foldl
    (fun acc p =>
      if (lookupKey acc.2 (PyKey.int p.1)).isSome then acc
      else
        (acc.1 ++ [p.1],
         setKey acc.2 (PyKey.int p.1)
           ⟨p.1, now, "new",
            p.2.getD ("Proposal #" ++ toString p.1)⟩))
    ([], cachedProposals)

/-- One full discovery call against persisted state: `_load_cache`, the
discovery loop, `_save_cache`; returns the new ids and the cache file as
written. -/
def discoverPersist (activeProposals : List (Int × Option String))
    (file : Option (FileContent (List (String × CacheEntry)))) (now : String) :
    List Int × List (String × CacheEntry) :=
  let cached := loadCache file
  let r := monitorNewProposals activeProposals cached now
  (r.1, saveCacheFile r.2)

/-- Saving the in-memory cache and loading it back
(`_save_cache` then `_load_cache` on a well-formed file). -/
def dumpLoadCacheDoc (cache : List (PyKey × CacheEntry)) :
    List (PyKey × CacheEntry) :=
  loadCache (some (.wellFormed (saveCacheFile cache)))

/-! ### Vote-count persistence (`bot/main.py` lines 220-231) -/

/-- The error that escapes `GovernanceBot.load_vote_counts` on malformed
content: `json.load` raises `json.JSONDecodeError` and only
`FileNotFoundError` is caught. -/
inductive LoadError where
  | jsonDecodeError
deriving DecidableEq, Repr

/-- `GovernanceBot.load_vote_counts` (lines 220-226): `FileNotFoundError`
is caught and `{}` returned; a well-formed file parses; malformed content
raises, and the exception propagates to the caller. -/
def loadVoteCounts (file : Option (FileContent (List (String × VoteData)))) :
    Except LoadError (List (String × VoteData)) :=
  match file with
  | none => .ok []
  | some (.wellFormed doc) => .ok doc
  | some .malformed => .error .jsonDecodeError

/-- The file states observable at crash points of
`GovernanceBot.save_vote_counts` (lines 228-231) and
`GovernanceMonitor._save_cache` (lines 88-94), both of which run
`open(path, "w")` followed by `json.dump`: the old content before the open,
then — since opening with mode `"w"` truncates the file in place — every
prefix of the new content as the write proceeds, the empty file right after
truncation and the complete new file at the end. No temporary file and no
rename are involved. -/
def directSaveStates (oldContent newContent : String) : List String :=
  oldContent ::
    (List.range (newContent.length + 1)).map (fun k => newContent.take k)

/-! ## Association-list lemmas -/

theorem lookupKey_setKey_self {κ β : Type} [DecidableEq κ]
    (l : List (κ × β)) (k : κ) (v : β) :
    lookupKey (setKey l k v) k = some v := by
  induction l with
  | nil => simp [setKey, lookupKey]
  | cons p rest ih =>
    by_cases h : p.1 = k
    · simp [setKey, h, lookupKey]
    · simp [setKey, h, lookupKey, ih]

theorem lookupKey_setKey_ne {κ β : Type} [DecidableEq κ]
    (l : List (κ × β)) (k k' : κ) (v : β) (hne : k' ≠ k) :
    lookupKey (setKey l k v) k' = lookupKey l k' := by
  have hkk : ¬k = k' := fun hh => hne hh.symm
  induction l with
  | nil => simp [setKey, lookupKey, hkk]
  | cons p rest ih =>
    by_cases h : p.1 = k
    · have hp : ¬p.1 = k' := by rw [h]; exact hkk
      simp [setKey, h, lookupKey, hkk, hp]
    · simp [setKey, h, lookupKey, ih]

theorem lookupKey_eq_none_iff {κ β : Type} [DecidableEq κ]
    (l : List (κ × β)) (k : κ) :
    lookupKey l k = none ↔ k ∉ l.map Prod.fst := by
  induction l with
  | nil => simp [lookupKey]
  | cons p rest ih =>
    by_cases h : p.1 = k
    · simp [lookupKey, h]
    · have hs : ¬k = p.1 := fun hh => h hh.symm
      simp [lookupKey, h, ih, hs]

theorem setKey_of_not_found {κ β : Type} [DecidableEq κ]
    (l : List (κ × β)) (k : κ) (v : β) (h : lookupKey l k = none) :
    setKey l k v = l ++ [(k, v)] := by
  induction l with
  | nil => simp [setKey]
  | cons p rest ih =>
    by_cases hk : p.1 = k
    · simp [lookupKey, hk] at h
    · have h' : lookupKey rest k = none := by simpa [lookupKey, hk] using h
      simp [setKey, hk, ih h']

theorem keys_setKey_of_found {κ β : Type} [DecidableEq κ]
    (l : List (κ × β)) (k : κ) (v v0 : β) (h : lookupKey l k = some v0) :
    (setKey l k v).map Prod.fst = l.map Prod.fst := by
  induction l with
  | nil => simp [lookupKey] at h
  | cons p rest ih =>
    by_cases hk : p.1 = k
    · simp [setKey, hk]
    · simp only [lookupKey, hk, if_false] at h
      simp [setKey, hk, ih h]

theorem mem_of_lookupKey_eq_some {κ β : Type} [DecidableEq κ]
    (l : List (κ × β)) (k : κ) (v : β) (h : lookupKey l k = some v) :
    (k, v) ∈ l := by
  induction l with
  | nil => simp [lookupKey] at h
  | cons p rest ih =>
    by_cases hk : p.1 = k
    · simp only [lookupKey, hk, if_true, Option.some.injEq] at h
      exact List.mem_cons.mpr (Or.inl (by rw [← hk, ← h]))
    · simp only [lookupKey, hk, if_false] at h
      exact List.mem_cons_of_mem _ (ih h)

/-! ## Counting lemmas for the tally invariant -/

theorem countChoice_cons (q : String × Choice) (us : List (String × Choice))
    (c : Choice) :
    countChoice (q :: us) c =
      countChoice us c + (if q.2 = c then 1 else 0) := by
  simp [countChoice, List.countP_cons]

theorem countChoice_append (us vs : List (String × Choice)) (c : Choice) :
    countChoice (us ++ vs) c = countChoice us c + countChoice vs c := by
  simp [countChoice, List.countP_append]

theorem countChoice_pos_of_mem (us : List (String × Choice)) (u : String)
    (p : Choice) (h : (u, p) ∈ us) : 0 < countChoice us p := by
  induction us with
  | nil => simp at h
  | cons q rest ih =>
    rcases List.mem_cons.mp h with h1 | h1
    · simp [countChoice_cons, ← h1]
    · have := ih h1
      rw [countChoice_cons]
      omega

theorem countChoice_sum (us : List (String × Choice)) :
    countChoice us .aye + countChoice us .nay + countChoice us .recuse =
      us.length := by
  induction us with
  | nil => simp [countChoice]
  | cons q rest ih =>
    cases h : q.2 <;> simp [countChoice_cons, h] <;> omega

theorem countChoice_setKey_found (us : List (String × Choice)) (u : String)
    (p c c' : Choice) (h : lookupKey us u = some p) :
    countChoice (setKey us u c) c' + (if p = c' then 1 else 0) =
      countChoice us c' + (if c = c' then 1 else 0) := by
  induction us with
  | nil => simp [lookupKey] at h
  | cons q rest ih =>
    by_cases hk : q.1 = u
    · simp only [lookupKey, hk, if_true, Option.some.injEq] at h
      simp only [setKey, hk, if_true]
      rw [countChoice_cons, countChoice_cons]
      subst h
      dsimp only
      omega
    · simp only [lookupKey, hk, if_false] at h
      simp only [setKey, hk, if_false]
      rw [countChoice_cons, countChoice_cons]
      have := ih h
      dsimp only
      omega

/-! ## Vote-cast lemmas -/

theorem getCount_setCount (vd : VoteData) (c c' : Choice) (n : Nat) :
    getCount (setCount vd c n) c' = if c' = c then n else getCount vd c' := by
  cases c <;> cases c' <;> simp [getCount, setCount]

theorem users_setCount (vd : VoteData) (c : Choice) (n : Nat) :
    (setCount vd c n).users = vd.users := by
  cases c <;> rfl

theorem getCount_users_update (vd : VoteData)
    (us : List (String × Choice)) (c : Choice) :
    getCount { vd with users := us } c = getCount vd c := by
  cases c <;> rfl

theorem users_handleVote (vd : VoteData) (u : String) (c : Choice) :
    (handleVote vd u c).users = setKey vd.users u c := by
  cases h : lookupKey vd.users u <;>
    simp [handleVote, h, users_setCount]

theorem handleVote_eq_of_none (vd : VoteData) (u : String) (c : Choice)
    (h : lookupKey vd.users u = none) :
    handleVote vd u c =
      setCount { vd with users := setKey vd.users u c } c
        (getCount vd c + 1) := by
  simp [handleVote, h, getCount_users_update]

theorem handleVote_eq_of_some (vd : VoteData) (u : String) (p c : Choice)
    (h : lookupKey vd.users u = some p) :
    handleVote vd u c =
      setCount
        { setCount vd p (max 0 (getCount vd p - 1)) with
          users := setKey vd.users u c } c
        (getCount (setCount vd p (max 0 (getCount vd p - 1))) c + 1) := by
  simp [handleVote, h, getCount_users_update, users_setCount]

theorem tallyOk_def (vd : VoteData) :
    tallyOk vd ↔
      ((vd.users.map Prod.fst).Nodup ∧
        ∀ c, getCount vd c = countChoice vd.users c) := by
  constructor
  · rintro ⟨h0, h1, h2, h3⟩
    exact ⟨h0, fun c => by cases c <;> assumption⟩
  · rintro ⟨h0, h⟩
    exact ⟨h0, h .aye, h .nay, h .recuse⟩

theorem tallyOk_handleVote (vd : VoteData) (u : String) (c : Choice)
    (hI : tallyOk vd) : tallyOk (handleVote vd u c) := by
  rw [tallyOk_def] at hI ⊢
  obtain ⟨hnd, hcnt⟩ := hI
  cases h : lookupKey vd.users u with
  | none =>
    rw [handleVote_eq_of_none vd u c h]
    have hu : u ∉ vd.users.map Prod.fst := (lookupKey_eq_none_iff _ _).mp h
    constructor
    · rw [users_setCount]
      show ((setKey vd.users u c).map Prod.fst).Nodup
      rw [setKey_of_not_found _ _ _ h, List.map_append]
      simp [List.nodup_append, hnd, hu]
    · intro c'
      rw [users_setCount]
      show getCount _ c' = countChoice (setKey vd.users u c) c'
      rw [setKey_of_not_found _ _ _ h]
      have hW : ∀ c'',
          getCount { vd with users := vd.users ++ [(u, c)] } c'' =
            getCount vd c'' := fun c'' => getCount_users_update _ _ _
      rw [getCount_setCount, hW, countChoice_append, hcnt c']
      have hone : countChoice [(u, c)] c' = if c = c' then 1 else 0 := by
        simp [countChoice, List.countP_cons]
      rw [hone, hcnt c]
      by_cases hc : c' = c
      · subst hc; simp
      · have hc2 : ¬c = c' := fun hh => hc hh.symm
        simp [hc, hc2]
  | some p =>
    rw [handleVote_eq_of_some vd u p c h]
    have hmem : (u, p) ∈ vd.users := mem_of_lookupKey_eq_some _ _ _ h
    have hpos : 0 < countChoice vd.users p := countChoice_pos_of_mem _ _ _ hmem
    constructor
    · rw [users_setCount]
      show ((setKey vd.users u c).map Prod.fst).Nodup
      rw [keys_setKey_of_found _ _ _ _ h]
      exact hnd
    · intro c'
      rw [users_setCount]
      show getCount _ c' = countChoice (setKey vd.users u c) c'
      have hW : ∀ c'',
          getCount
              { setCount vd p (max 0 (getCount vd p - 1)) with
                users := setKey vd.users u c } c'' =
            getCount (setCount vd p (max 0 (getCount vd p - 1))) c'' :=
        fun c'' => getCount_users_update _ _ _
      rw [getCount_setCount, hW, getCount_setCount, getCount_setCount]
      have h8 := countChoice_setKey_found vd.users u p c c' h
      have hp := hcnt p
      have hc' := hcnt c'
      have hcc := hcnt c
      cases c <;> cases c' <;> cases p <;>
        simp_all [getCount, Nat.zero_max] <;> omega

theorem lookup_handleVote_self (vd : VoteData) (u : String) (c : Choice) :
    lookupKey (handleVote vd u c).users u = some c := by
  rw [users_handleVote]
  exact lookupKey_setKey_self _ _ _

theorem countsOf_eq_of_getCount (vd1 vd2 : VoteData)
    (h : ∀ c, getCount vd1 c = getCount vd2 c) :
    countsOf vd1 = countsOf vd2 := by
  have h1 := h .aye
  have h2 := h .nay
  have h3 := h .recuse
  simp only [getCount] at h1 h2 h3
  simp [countsOf, h1, h2, h3]

theorem counts_handleVote_of_same (vd : VoteData) (u : String) (c : Choice)
    (hI : tallyOk vd) (h : lookupKey vd.users u = some c) :
    countsOf (handleVote vd u c) = countsOf vd := by
  rw [tallyOk_def] at hI
  obtain ⟨hnd, hcnt⟩ := hI
  have hmem : (u, c) ∈ vd.users := mem_of_lookupKey_eq_some _ _ _ h
  have hpos : 0 < countChoice vd.users c := countChoice_pos_of_mem _ _ _ hmem
  have hcc := hcnt c
  have hW : ∀ c'',
      getCount
          { setCount vd c (max 0 (getCount vd c - 1)) with
            users := setKey vd.users u c } c'' =
        getCount (setCount vd c (max 0 (getCount vd c - 1))) c'' :=
    fun c'' => getCount_users_update _ _ _
  apply countsOf_eq_of_getCount
  intro c''
  rw [handleVote_eq_of_some vd u c c h]
  rw [getCount_setCount, hW, getCount_setCount, getCount_setCount]
  cases c <;> cases c'' <;> simp_all [getCount, Nat.zero_max] <;> omega

theorem tallyOk_applyVotes (vd : VoteData) (u : String) (cs : List Choice)
    (hI : tallyOk vd) : tallyOk (applyVotes vd u cs) := by
  induction cs generalizing vd with
  | nil => exact hI
  | cons c rest ih =>
    exact ih (handleVote vd u c) (tallyOk_handleVote vd u c hI)

theorem lookup_applyVotes (vd : VoteData) (u : String) (cs : List Choice)
    (hne : cs ≠ []) :
    lookupKey (applyVotes vd u cs).users u = cs.getLast? := by
  induction cs generalizing vd with
  | nil => exact absurd rfl hne
  | cons c rest ih =>
    cases rest with
    | nil =>
      show lookupKey (handleVote vd u c).users u = some c
      exact lookup_handleVote_self vd u c
    | cons c2 rest2 =>
      show lookupKey (applyVotes (handleVote vd u c) u (c2 :: rest2)).users u =
        (c :: c2 :: rest2).getLast?
      rw [ih (handleVote vd u c) (by simp), List.getLast?_cons_cons]

theorem sumCounts_eq_users_length (vd : VoteData) (hI : tallyOk vd) :
    sumCounts vd = vd.users.length := by
  obtain ⟨hnd, ha, hn, hr⟩ := hI
  rw [sumCounts, ha, hn, hr]
  exact countChoice_sum vd.users

/-- Claim C1: for every vote record satisfying the tally invariant and every
sequence of vote casts by the same user, after each call (each prefix of the
sequence) the record still satisfies the invariant (each counter counts the
users with that choice), the counters sum to the number of users, and the
user's stored choice is the last one cast so far. -/
theorem claim_single_vote_invariant (vd : VoteData) (u : String)
    (cs : List Choice) (hI : tallyOk vd) (n : Nat) (hn : n ≤ cs.length)
    (hpos : 0 < n) :
    tallyOk (applyVotes vd u (cs.take n)) ∧
    sumCounts (applyVotes vd u (cs.take n)) =
      (applyVotes vd u (cs.take n)).users.length ∧
    lookupKey (applyVotes vd u (cs.take n)).users u = (cs.take n).getLast? := by
  have h1 := tallyOk_applyVotes vd u (cs.take n) hI
  refine ⟨h1, sumCounts_eq_users_length _ h1, lookup_applyVotes vd u _ ?_⟩
  have hlen : (cs.take n).length = min n cs.length := List.length_take n cs
  intro hnil
  rw [hnil] at hlen
  simp at hlen
  omega

/-- Witness for C1: the spec's scenario 2 — user `"42"` casts `aye` then
`nay` on a fresh record. -/
theorem claim_single_vote_invariant_witness :
    tallyOk (applyVotes ⟨some 1, 0, 0, 0, []⟩ "42"
        ([Choice.aye, Choice.nay].take 2)) ∧
    sumCounts (applyVotes ⟨some 1, 0, 0, 0, []⟩ "42"
        ([Choice.aye, Choice.nay].take 2)) =
      (applyVotes ⟨some 1, 0, 0, 0, []⟩ "42"
        ([Choice.aye, Choice.nay].take 2)).users.length ∧
    lookupKey (applyVotes ⟨some 1, 0, 0, 0, []⟩ "42"
        ([Choice.aye, Choice.nay].take 2)).users "42" =
      ([Choice.aye, Choice.nay].take 2).getLast? :=
  claim_single_vote_invariant ⟨some 1, 0, 0, 0, []⟩ "42"
    [Choice.aye, Choice.nay] (by decide) 2 (by decide) (by decide)

/-- Claim C2: on a record satisfying the tally invariant, casting the same
choice twice in a row by the same user leaves the counters exactly as they
were after the first cast. -/
theorem claim_idempotent_revote (vd : VoteData) (u : String) (c : Choice)
    (hI : tallyOk vd) :
    countsOf (handleVote (handleVote vd u c) u c) =
      countsOf (handleVote vd u c) :=
  counts_handleVote_of_same (handleVote vd u c) u c
    (tallyOk_handleVote vd u c hI) (lookup_handleVote_self vd u c)

/-- Witness for C2: double `aye` by user `"42"` on a fresh record. -/
theorem claim_idempotent_revote_witness :
    countsOf (handleVote (handleVote ⟨some 1, 0, 0, 0, []⟩ "42" Choice.aye)
        "42" Choice.aye) =
      countsOf (handleVote ⟨some 1, 0, 0, 0, []⟩ "42" Choice.aye) :=
  claim_idempotent_revote ⟨some 1, 0, 0, 0, []⟩ "42" Choice.aye (by decide)

/-! ## Reconciliation lemmas -/

theorem archiveLoop_fst (active : List Int) (now : String)
    (vcs : List (String × VoteData)) (ts : List String)
    (ar : List (String × ArchiveEntry)) :
    (archiveLoop active now vcs (ts, ar)).1 =
      ts ++ (vcs.filter (fun p => isRetired active p.2)).map Prod.fst := by
  induction vcs generalizing ts ar with
  | nil => simp [archiveLoop]
  | cons p rest ih =>
    cases hr : isRetired active p.2 with
    | false => simp [archiveLoop, hr, ih]
    | true => simp [archiveLoop, hr, ih]

theorem archiveLoop_snd_lookup_of_no_key (active : List Int) (now : String)
    (vcs : List (String × VoteData)) (ts : List String)
    (ar : List (String × ArchiveEntry)) (t : String)
    (h : ∀ p ∈ vcs, isRetired active p.2 = true → p.1 ≠ t) :
    lookupKey (archiveLoop active now vcs (ts, ar)).2 t = lookupKey ar t := by
  induction vcs generalizing ts ar with
  | nil => rfl
  | cons p rest ih =>
    have hrest : ∀ q ∈ rest, isRetired active q.2 = true → q.1 ≠ t :=
      fun q hq => h q (List.mem_cons_of_mem _ hq)
    cases hr : isRetired active p.2 with
    | false => simpa [archiveLoop, hr] using ih _ _ hrest
    | true =>
      have hne : t ≠ p.1 := fun hh => h p (List.mem_cons_self _ _) hr hh.symm
      simp only [archiveLoop, hr, if_true]
      rw [ih _ _ hrest, lookupKey_setKey_ne _ _ _ _ hne]

theorem archiveLoop_snd_lookup_of_mem (active : List Int) (now : String)
    (vcs : List (String × VoteData)) (ts : List String)
    (ar : List (String × ArchiveEntry)) (t : String) (vd : VoteData)
    (hmem : (t, vd) ∈ vcs) (hret : isRetired active vd = true)
    (hnd : (vcs.map Prod.fst).Nodup) :
    lookupKey (archiveLoop active now vcs (ts, ar)).2 t =
      some ⟨vd, now, "completed"⟩ := by
  induction vcs generalizing ts ar with
  | nil => simp at hmem
  | cons p rest ih =>
    rw [List.map_cons, List.nodup_cons] at hnd
    rcases List.mem_cons.mp hmem with h1 | h1
    · subst h1
      have hrest : ∀ q ∈ rest, isRetired active q.2 = true → q.1 ≠ t := by
        intro q hq _ hqt
        have hq1 : q.1 ∈ rest.map Prod.fst := List.mem_map_of_mem Prod.fst hq
        rw [hqt] at hq1
        exact hnd.1 hq1
      have hstep : archiveLoop active now ((t, vd) :: rest) (ts, ar) =
          archiveLoop active now rest
            (ts ++ [t], setKey ar t ⟨vd, now, "completed"⟩) := by
        simp [archiveLoop, hret]
      rw [hstep, archiveLoop_snd_lookup_of_no_key _ _ _ _ _ _ hrest]
      exact lookupKey_setKey_self _ _ _
    · cases hr : isRetired active p.2 with
      | false => simpa [archiveLoop, hr] using ih _ _ h1 hnd.2
      | true => simpa [archiveLoop, hr] using ih _ _ h1 hnd.2

theorem contains_retiredKeys_eq (voteCounts : List (String × VoteData))
    (active : List Int) (hnd : (voteCounts.map Prod.fst).Nodup)
    (p : String × VoteData) (hp : p ∈ voteCounts) :
    ((voteCounts.filter (fun q => isRetired active q.2)).map
        Prod.fst).contains p.1 = isRetired active p.2 := by
  cases hr : isRetired active p.2 with
  | true =>
    have : p.1 ∈ (voteCounts.filter (fun q => isRetired active q.2)).map
        Prod.fst :=
      List.mem_map_of_mem Prod.fst (List.mem_filter.mpr ⟨hp, hr⟩)
    simpa using this
  | false =>
    by_contra hc
    have hmem : p.1 ∈ (voteCounts.filter
        (fun q => isRetired active q.2)).map Prod.fst := by
      cases h2 : ((voteCounts.filter (fun q => isRetired active q.2)).map
          Prod.fst).contains p.1 with
      | false => rw [h2] at hc; exact absurd rfl hc
      | true => simpa using h2
    obtain ⟨q, hq, hq1⟩ := List.mem_map.mp hmem
    obtain ⟨hqvc, hqr⟩ := List.mem_filter.mp hq
    have : q = p := List.inj_on_of_nodup_map hnd hqvc hp hq1
    rw [this] at hqr
    rw [hqr] at hr
    exact absurd hr (by simp)

/-- Claim C4: reconciliation retires exactly the records whose proposal
index is outside the active set — it returns exactly their thread ids,
removes exactly them from the live tally document, leaves every active
record unchanged, and the archive afterwards maps each retired thread id
to its record stamped with `archived_at = now` and
`final_status = "completed"`. Stated for tally documents with unique thread
ids (dict semantics) in which every record carries an index. -/
theorem claim_reconcile_exact (voteCounts : List (String × VoteData))
    (active : List Int) (archived : List (String × ArchiveEntry))
    (now : String) (hnd : (voteCounts.map Prod.fst).Nodup)
    (_hidx : ∀ p ∈ voteCounts, p.2.index.isSome) :
    (deleteExecutedKeysAndArchive voteCounts active archived
        now).threadsToLock =
      (voteCounts.filter (fun p => isRetired active p.2)).map Prod.fst ∧
    (deleteExecutedKeysAndArchive voteCounts active archived now).voteCounts =
      voteCounts.filter (fun p => !(isRetired active p.2)) ∧
    ∀ t vd, (t, vd) ∈ voteCounts → isRetired active vd = true →
      lookupKey (deleteExecutedKeysAndArchive voteCounts active archived
          now).archivedVotes t = some ⟨vd, now, "completed"⟩ := by
  have hfst : (archiveLoop active now voteCounts ([], archived)).1 =
      (voteCounts.filter (fun p => isRetired active p.2)).map Prod.fst := by
    simpa using archiveLoop_fst active now voteCounts [] archived
  refine ⟨hfst, ?_, ?_⟩
  · show voteCounts.filter _ = _
    rw [hfst]
    apply List.filter_congr
    intro p hp
    rw [contains_retiredKeys_eq voteCounts active hnd p hp]
  · intro t vd hmem hret
    exact archiveLoop_snd_lookup_of_mem active now voteCounts [] archived
      t vd hmem hret hnd

/-- Witness for C4: the spec's scenario 3 — threads `"100"` (proposal 1)
and `"200"` (proposal 2), active set `{2}`. -/
theorem claim_reconcile_exact_witness :
    (deleteExecutedKeysAndArchive
        [("100", ⟨some 1, 0, 0, 0, []⟩), ("200", ⟨some 2, 0, 0, 0, []⟩)]
        [2] [] "now").threadsToLock =
      ([("100", (⟨some 1, 0, 0, 0, []⟩ : VoteData)),
        ("200", ⟨some 2, 0, 0, 0, []⟩)].filter
          (fun p => isRetired [2] p.2)).map Prod.fst ∧
    (deleteExecutedKeysAndArchive
        [("100", ⟨some 1, 0, 0, 0, []⟩), ("200", ⟨some 2, 0, 0, 0, []⟩)]
        [2] [] "now").voteCounts =
      [("100", (⟨some 1, 0, 0, 0, []⟩ : VoteData)),
        ("200", ⟨some 2, 0, 0, 0, []⟩)].filter
          (fun p => !(isRetired [2] p.2)) ∧
    ∀ t vd,
      (t, vd) ∈ [("100", (⟨some 1, 0, 0, 0, []⟩ : VoteData)),
        ("200", ⟨some 2, 0, 0, 0, []⟩)] →
      isRetired [2] vd = true →
      lookupKey (deleteExecutedKeysAndArchive
          [("100", ⟨some 1, 0, 0, 0, []⟩), ("200", ⟨some 2, 0, 0, 0, []⟩)]
          [2] [] "now").archivedVotes t = some ⟨vd, "now", "completed"⟩ :=
  claim_reconcile_exact
    [("100", ⟨some 1, 0, 0, 0, []⟩), ("200", ⟨some 2, 0, 0, 0, []⟩)]
    [2] [] "now" (by decide) (by decide)

theorem retired_ne_key (voteCounts : List (String × VoteData))
    (active : List Int) (hnd : (voteCounts.map Prod.fst).Nodup) (t : String)
    (vd : VoteData) (hmem : (t, vd) ∈ voteCounts)
    (hnr : isRetired active vd = false) :
    ∀ p ∈ voteCounts, isRetired active p.2 = true → p.1 ≠ t := by
  intro p hp hpr hpt
  have hpq : p = (t, vd) := List.inj_on_of_nodup_map hnd hp hmem hpt
  rw [hpq] at hpr
  have : isRetired active vd = true := hpr
  rw [hnr] at this
  exact Bool.noConfusion this

/-- Claim C10: a vote record whose data has no `index` field is left in the
live tally document unchanged by reconciliation, is not copied to the
archive (the archive is unchanged at its thread id), and its thread id is
not returned, whatever the active set. Stated for tally documents with
unique thread ids (dict semantics). -/
theorem claim_no_index_untouched (voteCounts : List (String × VoteData))
    (active : List Int) (archived : List (String × ArchiveEntry))
    (now : String) (hnd : (voteCounts.map Prod.fst).Nodup) (t : String)
    (vd : VoteData) (hmem : (t, vd) ∈ voteCounts) (hnone : vd.index = none) :
    t ∉ (deleteExecutedKeysAndArchive voteCounts active archived
        now).threadsToLock ∧
    (t, vd) ∈ (deleteExecutedKeysAndArchive voteCounts active archived
        now).voteCounts ∧
    lookupKey (deleteExecutedKeysAndArchive voteCounts active archived
        now).archivedVotes t = lookupKey archived t := by
  have hnr : isRetired active vd = false := by simp [isRetired, hnone]
  have hne := retired_ne_key voteCounts active hnd t vd hmem hnr
  have hkeys : t ∉ (archiveLoop active now voteCounts ([], archived)).1 := by
    rw [archiveLoop_fst]
    intro hmm
    rw [List.nil_append] at hmm
    obtain ⟨q, hq, hq1⟩ := List.mem_map.mp hmm
    obtain ⟨hqvc, hqr⟩ := List.mem_filter.mp hq
    exact hne q hqvc (by simpa using hqr) hq1
  refine ⟨hkeys, ?_, ?_⟩
  · show (t, vd) ∈ voteCounts.filter _
    refine List.mem_filter.mpr ⟨hmem, ?_⟩
    simpa using hkeys
  · exact archiveLoop_snd_lookup_of_no_key active now voteCounts [] archived
      t hne

/-- Witness for C10: a record without an index survives a reconciliation in
which its thread would otherwise be retired. -/
theorem claim_no_index_untouched_witness :
    "100" ∉ (deleteExecutedKeysAndArchive
        [("100", (⟨none, 0, 0, 0, []⟩ : VoteData))] [2] []
        "now").threadsToLock ∧
    ("100", (⟨none, 0, 0, 0, []⟩ : VoteData)) ∈ (deleteExecutedKeysAndArchive
        [("100", (⟨none, 0, 0, 0, []⟩ : VoteData))] [2] [] "now").voteCounts ∧
    lookupKey (deleteExecutedKeysAndArchive
        [("100", (⟨none, 0, 0, 0, []⟩ : VoteData))] [2] []
        "now").archivedVotes "100" =
      lookupKey ([] : List (String × ArchiveEntry)) "100" :=
  claim_no_index_untouched [("100", ⟨none, 0, 0, 0, []⟩)] [2] [] "now"
    (by decide) "100" ⟨none, 0, 0, 0, []⟩ (by decide) (by decide)

/-- Claim C6 is refuted: with thread `"100"` on retired proposal 1, empty
archive and active set `{2}`, the crash state after the first write (the
source saves the updated tally first, lines 98-99 of
`data_processing.py`, and the archive second, lines 101-102) holds the
retired record in neither document, so it is not the case that every crash
point leaves each retired record in at least one document. -/
theorem claim_archive_before_delete_cex :
    ¬ (∀ s ∈ reconcileFileStates
        [("100", (⟨some 1, 0, 0, 0, []⟩ : VoteData))] [2] [] "now",
        ("100" ∈ s.1.map Prod.fst) ∨ ("100" ∈ s.2.map Prod.fst)) := by
  decide

/-- Claim C6 (amended): reconciliation writes the updated live tally
document (with retired records removed) first and the archive second, so
there is a crash point — the state between the two writes — at which a
retired record that was not already archived is present in neither
document. -/
theorem claim_reconcile_write_order_gap (tallyFile : List (String × VoteData))
    (active : List Int) (archiveFile : List (String × ArchiveEntry))
    (now : String) (t : String)
    (vd : VoteData) (hmem : (t, vd) ∈ tallyFile)
    (hret : isRetired active vd = true)
    (harch : lookupKey archiveFile t = none) :
    ∃ s ∈ reconcileFileStates tallyFile active archiveFile now,
      lookupKey s.1 t = none ∧ lookupKey s.2 t = none := by
  refine ⟨((deleteExecutedKeysAndArchive tallyFile active archiveFile
      now).voteCounts, archiveFile), by simp [reconcileFileStates], ?_, harch⟩
  rw [lookupKey_eq_none_iff]
  intro hmm
  obtain ⟨q, hq, hq1⟩ := List.mem_map.mp hmm
  obtain ⟨hqvc, hqpass⟩ := List.mem_filter.mp hq
  have ht : t ∈ (archiveLoop active now tallyFile ([], archiveFile)).1 := by
    rw [archiveLoop_fst, List.nil_append]
    exact List.mem_map.mpr ⟨(t, vd), List.mem_filter.mpr ⟨hmem, hret⟩, rfl⟩
  rw [hq1] at hqpass
  simp at hqpass
  exact hqpass ht

/-- Witness for the amended C6 at the counterexample input. -/
theorem claim_reconcile_write_order_gap_witness :
    ∃ s ∈ reconcileFileStates
        [("100", (⟨some 1, 0, 0, 0, []⟩ : VoteData))] [2] [] "now",
      lookupKey s.1 "100" = none ∧ lookupKey s.2 "100" = none :=
  claim_reconcile_write_order_gap
    [("100", ⟨some 1, 0, 0, 0, []⟩)] [2] [] "now" "100"
    ⟨some 1, 0, 0, 0, []⟩ (by decide) (by decide) (by decide)

/-! ## Discovery idempotence (C3) and persistence claims -/

/-- Claim C3 is refuted by evaluating the code: discovering proposal 1 on an
empty cache returns `[1]` and persists the cache keyed by the JSON string
`"1"`; a second call with the same single active proposal, reading the
persisted cache back, returns `[1]` again instead of the empty list,
because the loaded string key never equals the int key the membership test
uses. -/
theorem claim_discovery_not_idempotent :
    (discoverPersist [(1, some "A")] none "t0").1 = [1] ∧
    (discoverPersist [(1, some "A")]
        (some (FileContent.wellFormed
          (discoverPersist [(1, some "A")] none "t0").2)) "t1").1 =
      [1] ∧
    (discoverPersist [(1, some "A")]
        (some (FileContent.wellFormed
          (discoverPersist [(1, some "A")] none "t0").2)) "t1").1 ≠
      [] := by
  refine ⟨rfl, rfl, ?_⟩
  decide

/-- Claim C5 is refuted: saving `"newdoc"` over `"olddoc"` passes through
the crash state in which the file is empty (truncated but not yet
rewritten), which is neither the complete old nor the complete new
document. -/
theorem claim_atomic_save_cex :
    ¬ (∀ s ∈ directSaveStates "olddoc" "newdoc",
        s = "olddoc" ∨ s = "newdoc") := by
  decide

/-- Claim C5 (amended): the save is a plain in-place `open(path, "w")` plus
`json.dump` with no temporary file and no rename, so the only guarantee at
a crash point is that the file holds either the complete old document or
some prefix of the new document — the empty file right after truncation,
a partial write, or the complete new document. -/
theorem claim_save_in_place_states (oldContent newContent s : String)
    (hs : s ∈ directSaveStates oldContent newContent) :
    s = oldContent ∨ ∃ k ≤ newContent.length, s = newContent.take k := by
  simp only [directSaveStates, List.mem_cons, List.mem_map,
    List.mem_range] at hs
  rcases hs with h | ⟨k, hk, hkeq⟩
  · left
    exact h
  · right
    exact ⟨k, by omega, hkeq.symm⟩

/-- Witness for the amended C5: the empty crash state is a prefix of the
new document. -/
theorem claim_save_in_place_states_witness :
    "" = "olddoc" ∨ ∃ k ≤ "newdoc".length, "" = "newdoc".take k :=
  claim_save_in_place_states "olddoc" "newdoc" "" (by decide)

/-- Claim C8 is refuted for `GovernanceMonitor._load_cache`: on malformed
content the loader catches the exception and returns the empty document —
the very value it returns for a missing file — instead of surfacing a
storage error. -/
theorem claim_load_malformed_cex :
    loadCache (some FileContent.malformed) =
      ([] : List (PyKey × CacheEntry)) ∧
    loadCache none = ([] : List (PyKey × CacheEntry)) :=
  ⟨rfl, rfl⟩

/-- Claim C8 (amended): a loader returns the parsed document on well-formed
content and the empty document when the file is missing; on malformed
content, `GovernanceMonitor._load_cache` silently returns the empty
document (the error is logged and swallowed), while
`GovernanceBot.load_vote_counts` propagates the raw JSON decode error
rather than a typed storage error. -/
theorem claim_load_behavior (d1 : List (String × CacheEntry))
    (d2 : List (String × VoteData)) :
    loadCache none = [] ∧
    loadCache (some (FileContent.wellFormed d1)) =
      d1.map (fun p => (PyKey.str p.1, p.2)) ∧
    loadCache (some FileContent.malformed) = [] ∧
    loadVoteCounts none = Except.ok [] ∧
    loadVoteCounts (some (FileContent.wellFormed d2)) = Except.ok d2 ∧
    loadVoteCounts (some FileContent.malformed) =
      Except.error LoadError.jsonDecodeError :=
  ⟨rfl, rfl, rfl, rfl, rfl, rfl⟩

/-- Claim C9 is refuted for the cache as built in memory by discovery: the
in-memory cache is keyed by the int `1`, but saving stringifies the key, so
loading yields a document keyed by the string `"1"`, not equal to the
document that was saved. -/
theorem claim_roundtrip_cex :
    dumpLoadCacheDoc [(PyKey.int 1, ⟨1, "t0", "new", "A"⟩)] ≠
      [(PyKey.int 1, ⟨1, "t0", "new", "A"⟩)] := by
  decide

/-- Claim C9 (amended): saving then loading restores exactly the documents
all of whose keys are strings; the int-keyed cache built by discovery comes
back with its keys stringified. -/
theorem claim_roundtrip_str_keys (cache : List (PyKey × CacheEntry))
    (h : ∀ p ∈ cache, ∃ s, p.1 = PyKey.str s) :
    dumpLoadCacheDoc cache = cache := by
  induction cache with
  | nil => rfl
  | cons p rest ih =>
    obtain ⟨s, hs⟩ := h p (List.mem_cons_self _ _)
    have hrest : dumpLoadCacheDoc rest = rest :=
      ih (fun q hq => h q (List.mem_cons_of_mem _ hq))
    simp only [dumpLoadCacheDoc, saveCacheFile, loadCache,
      List.map_cons] at hrest ⊢
    rw [hrest, hs]
    simp only [pyKeyToJsonKey]
    rw [← hs]

/-- Witness for the amended C9 on a string-keyed document. -/
theorem claim_roundtrip_str_keys_witness :
    dumpLoadCacheDoc [(PyKey.str "100", ⟨1, "t0", "new", "A"⟩)] =
      [(PyKey.str "100", ⟨1, "t0", "new", "A"⟩)] :=
  claim_roundtrip_str_keys [(PyKey.str "100", ⟨1, "t0", "new", "A"⟩)]
    (by intro p hp
        simp only [List.mem_cons, List.not_mem_nil, or_false] at hp
        exact ⟨"100", by rw [hp]⟩)

/-! ## Backup-rotation lemmas (C7) -/

theorem cleanupOldBackups_length (l : List (String × Nat)) (N : Nat) :
    (cleanupOldBackups l N).length = min N l.length := by
  simp [cleanupOldBackups, List.length_take, List.length_insertionSort]

theorem mem_cleanup_newest (dir : List (String × Nat)) (x : String × Nat)
    (N : Nat) (hN : 0 < N) (hmax : ∀ y ∈ dir, y.2 < x.2) :
    x ∈ cleanupOldBackups (dir ++ [x]) N := by
  have hx : x ∈ dir ++ [x] := by simp
  have hsorted : List.Sorted mtimeDesc
      ((dir ++ [x]).insertionSort mtimeDesc) :=
    List.sorted_insertionSort _ _
  show x ∈ ((dir ++ [x]).insertionSort mtimeDesc).take N
  cases hsort_eq : (dir ++ [x]).insertionSort mtimeDesc with
  | nil =>
    exfalso
    have hx2 : x ∈ (dir ++ [x]).insertionSort mtimeDesc :=
      (List.mem_insertionSort mtimeDesc).mpr hx
    rw [hsort_eq] at hx2
    simp at hx2
  | cons hd t =>
    by_cases hxh : hd = x
    · cases N with
      | zero => omega
      | succ n =>
        rw [List.take_succ_cons]
        exact List.mem_cons.mpr (Or.inl hxh.symm)
    · exfalso
      have hxt : x ∈ t := by
        have hx2 : x ∈ hd :: t := by
          rw [← hsort_eq]
          exact (List.mem_insertionSort mtimeDesc).mpr hx
        rcases List.mem_cons.mp hx2 with h1 | h1
        · exact absurd h1.symm hxh
        · exact h1
      have hrel : mtimeDesc hd x := by
        rw [hsort_eq] at hsorted
        exact List.rel_of_sorted_cons hsorted x hxt
      have hhmem : hd ∈ dir := by
        have hh : hd ∈ dir ++ [x] := by
          have : hd ∈ (dir ++ [x]).insertionSort mtimeDesc := by
            rw [hsort_eq]
            exact List.mem_cons_self _ _
          exact (List.mem_insertionSort mtimeDesc).mp this
        rcases List.mem_append.mp hh with h1 | h1
        · exact h1
        · simp at h1
          exact absurd h1 hxh
      have hlt := hmax hd hhmem
      have hge : x.2 ≤ hd.2 := hrel
      omega

theorem cleanup_kept_newest (l : List (String × Nat)) (N : Nat)
    (hsnd : (l.map Prod.snd).Nodup) (x y : String × Nat)
    (hx : x ∈ cleanupOldBackups l N) (hy : y ∈ l)
    (hyn : y ∉ cleanupOldBackups l N) : y.2 < x.2 := by
  simp only [cleanupOldBackups] at hx hyn
  have hperm : List.Perm (l.insertionSort mtimeDesc) l :=
    List.perm_insertionSort _ _
  have hysort : y ∈ l.insertionSort mtimeDesc := hperm.mem_iff.mpr hy
  have hsplit := List.take_append_drop N (l.insertionSort mtimeDesc)
  have hydrop : y ∈ (l.insertionSort mtimeDesc).drop N := by
    rcases List.mem_append.mp (by rw [hsplit]; exact hysort) with h1 | h1
    · exact absurd h1 hyn
    · exact h1
  have hsorted : List.Sorted mtimeDesc (l.insertionSort mtimeDesc) :=
    List.sorted_insertionSort _ _
  have hpw : List.Pairwise mtimeDesc
      ((l.insertionSort mtimeDesc).take N ++
        (l.insertionSort mtimeDesc).drop N) := by
    rw [hsplit]
    exact hsorted
  have hge : y.2 ≤ x.2 := (List.pairwise_append.mp hpw).2.2 x hx y hydrop
  have hnds : (((l.insertionSort mtimeDesc).take N ++
      (l.insertionSort mtimeDesc).drop N).map Prod.snd).Nodup := by
    rw [hsplit]
    exact (hperm.map Prod.snd).nodup_iff.mpr hsnd
  rw [List.map_append] at hnds
  have hdisj := (List.nodup_append.mp hnds).2.2
  have hxs : x.2 ∈ ((l.insertionSort mtimeDesc).take N).map Prod.snd :=
    List.mem_map_of_mem Prod.snd hx
  have hys : y.2 ∈ ((l.insertionSort mtimeDesc).drop N).map Prod.snd :=
    List.mem_map_of_mem Prod.snd hydrop
  have hne : x.2 ≠ y.2 := by
    intro hh
    exact hdisj hxs (by rw [hh]; exact hys)
  omega

theorem simSaves_mtime_lt (N n : Nat) : ∀ p ∈ simSaves N n, p.2 < n := by
  induction n with
  | zero => simp [simSaves]
  | succ m ih =>
    intro p hp
    simp only [simSaves, rotatingBackupFile, if_true,
      cleanupOldBackups] at hp
    have hp2 : p ∈ (simSaves N m ++
        [(toString m, m)]).insertionSort mtimeDesc :=
      List.take_subset _ _ hp
    have hp3 : p ∈ simSaves N m ++ [(toString m, m)] :=
      (List.mem_insertionSort mtimeDesc).mp hp2
    rcases List.mem_append.mp hp3 with h1 | h1
    · exact Nat.lt_succ_of_lt (ih p h1)
    · simp only [List.mem_singleton] at h1
      rw [h1]
      exact Nat.lt_succ_self m

theorem simSaves_length (N n : Nat) : (simSaves N n).length = min N n := by
  induction n with
  | zero => simp [simSaves]
  | succ m ih =>
    have hstep : simSaves N (m + 1) =
        cleanupOldBackups (simSaves N m ++ [(toString m, m)]) N := by
      simp [simSaves, rotatingBackupFile]
    rw [hstep, cleanupOldBackups_length, List.length_append, ih]
    simp
    omega

/-- Claim C7: one backup copy followed by rotation leaves exactly
`min N (number of backups present)` files; the kept files are the newest by
modification time — every discarded file is older than every kept one — and
include the backup just created; and `N + k` successive saves of an
existing document leave exactly `N` backup files. Stated for directories
with pairwise-distinct modification times in which the fresh backup is the
newest. -/
theorem claim_backup_rotation (dir : List (String × Nat)) (bname : String)
    (mt : Nat) (N k : Nat) (hN : 0 < N)
    (hsnd : (dir.map Prod.snd).Nodup) (hmax : ∀ y ∈ dir, y.2 < mt) :
    (rotatingBackupFile true dir bname mt N).length =
      min N (dir.length + 1) ∧
    (bname, mt) ∈ rotatingBackupFile true dir bname mt N ∧
    (∀ x ∈ rotatingBackupFile true dir bname mt N,
      ∀ y ∈ dir ++ [(bname, mt)],
        y ∉ rotatingBackupFile true dir bname mt N → y.2 < x.2) ∧
    (simSaves N (N + k)).length = N := by
  have hrot : rotatingBackupFile true dir bname mt N =
      cleanupOldBackups (dir ++ [(bname, mt)]) N := by
    simp [rotatingBackupFile]
  have hsnd2 : ((dir ++ [(bname, mt)]).map Prod.snd).Nodup := by
    rw [List.map_append, List.nodup_append]
    refine ⟨hsnd, by simp, ?_⟩
    intro a ha hb
    simp only [List.map_cons, List.map_nil, List.mem_singleton] at hb
    obtain ⟨y, hy, hy2⟩ := List.mem_map.mp ha
    have := hmax y hy
    omega
  refine ⟨?_, ?_, ?_, ?_⟩
  · rw [hrot, cleanupOldBackups_length]
    simp
  · rw [hrot]
    exact mem_cleanup_newest dir (bname, mt) N hN hmax
  · intro x hx y hy hyn
    rw [hrot] at hx hyn
    exact cleanup_kept_newest (dir ++ [(bname, mt)]) N hsnd2 x y hx hy hyn
  · rw [simSaves_length]
    omega

/-- Witness for C7: directory with backups at times 0 and 1, a new backup
at time 2, `max_backups = 2`, and three saves from scratch. -/
theorem claim_backup_rotation_witness :
    (rotatingBackupFile true [("a", 0), ("b", 1)] "c" 2 2).length =
      min 2 ([("a", 0), ("b", 1)].length + 1) ∧
    ("c", 2) ∈ rotatingBackupFile true [("a", 0), ("b", 1)] "c" 2 2 ∧
    (∀ x ∈ rotatingBackupFile true [("a", 0), ("b", 1)] "c" 2 2,
      ∀ y ∈ [("a", 0), ("b", 1)] ++ [("c", 2)],
        y ∉ rotatingBackupFile true [("a", 0), ("b", 1)] "c" 2 2 →
          y.2 < x.2) ∧
    (simSaves 2 (2 + 1)).length = 2 :=
  claim_backup_rotation [("a", 0), ("b", 1)] "c" 2 2 1 (by decide)
    (by decide) (by decide)

end GovBot
